import Mathlib

/-!
Shallow embedding of the markdown → block-tree parser
(`src/mcp_logseq/parser.py`) and proofs about the specification's claims.

Lines are modelled as `List Char` (the result of splitting the document on
newline characters, as the source does with `content.split("\n")`).  The
regular expressions of the source are translated into decision functions on
lines; each one's doc comment names the pattern it embeds, and the
translation follows the backtracking semantics of Python's `re` engine.
The YAML library used for frontmatter is outside the repository and is
modelled as an oracle parameter (`yamlLoad`).
-/

namespace McpLogseq

abbrev Line := List Char

/-- Python's `\s` class (and `str.strip`'s whitespace), restricted to the
ASCII range: space, tab, newline, carriage return, vertical tab, form feed. -/
def isWs (c : Char) : Bool :=
  c = ' ' || c = '\t' || c = '\n' || c = '\r' || c = '\x0b' || c = '\x0c'

def leadWs (l : Line) : Line := l.takeWhile isWs

def dropWs (l : Line) : Line := l.dropWhile isWs

/-- Python `str.strip()`. -/
def strip (l : Line) : Line := ((l.dropWhile isWs).reverse.dropWhile isWs).reverse

/-- Python `str.rstrip()`. -/
def rstrip (l : Line) : Line := (l.reverse.dropWhile isWs).reverse

/-- `not line.strip()` — the line is empty or whitespace only. -/
def isBlank (l : Line) : Bool := (strip l).isEmpty

def startsWithWs (l : Line) : Bool :=
  match l with
  | c :: _ => isWs c
  | [] => false

/-- `_get_indent_level`'s character scan: spaces count 1, tabs count 2,
stopping at the first other character. -/
def indentWidth : Line → Nat
  | ' ' :: r => 1 + indentWidth r
  | '\t' :: r => 2 + indentWidth r
  | _ => 0

/-- `_get_indent_level`: indentation width divided by 2, floored. -/
def indentLevel (l : Line) : Nat := indentWidth l / 2

/-- The trailing part `\s+(.+)$` of several patterns: at least one whitespace
character, then a nonempty remainder.  With the engine's backtracking this
accepts iff the input starts with whitespace and has length ≥ 2; the group is
the text after the maximal whitespace run when that is nonempty, otherwise
the last whitespace character itself. -/
def wsPlusText (r : Line) : Option Line :=
  if startsWithWs r then
    let tail := dropWs r
    if tail.isEmpty then
      if 2 ≤ r.length then some [r.getLastD ' '] else none
    else some tail
  else none

/-- `HEADING_PATTERN = ^(#{1,6})\s+(.+)$`, used through `_get_heading_level`:
the number of leading `#` characters (1–6) when the pattern matches, else 0. -/
def headingLevelOf (l : Line) : Nat :=
  let n := (l.takeWhile (· = '#')).length
  if 1 ≤ n ∧ n ≤ 6 ∧ (wsPlusText (l.dropWhile (· = '#'))).isSome then n else 0

/-- `BULLET_PATTERN = ^(\s*)([-*+])\s+(.*)$`: returns (marker, text), where
the text is everything after the maximal whitespace run following the
marker (so it never starts with whitespace, but may keep trailing spaces). -/
def bulletMatch (l : Line) : Option (Char × Line) :=
  match dropWs l with
  | m :: rest =>
    if (m = '-' || m = '*' || m = '+') && startsWithWs rest then
      some (m, dropWs rest)
    else none
  | [] => none

/-- `NUMBERED_PATTERN = ^(\s*)(\d+\.)\s+(.*)$`: returns the text after the
`digits.` marker and the following whitespace run. -/
def numberedMatch (l : Line) : Option Line :=
  let r := dropWs l
  match r.dropWhile Char.isDigit with
  | '.' :: rest =>
    if ¬ (r.takeWhile Char.isDigit).isEmpty && startsWithWs rest then
      some (dropWs rest)
    else none
  | _ => none

/-- `CHECKBOX_PATTERN = ^(\s*)([-*+])\s+\[([ xX])\]\s+(.*)$`: returns the
check character and the text after the closing bracket's whitespace run. -/
def checkboxMatch (l : Line) : Option (Char × Line) :=
  match dropWs l with
  | m :: rest =>
    if (m = '-' || m = '*' || m = '+') && startsWithWs rest then
      match dropWs rest with
      | '[' :: c :: ']' :: rest2 =>
        if (c = ' ' || c = 'x' || c = 'X') && startsWithWs rest2 then
          some (c, dropWs rest2)
        else none
      | _ => none
    else none
  | [] => none

def isMarkerChar (c : Char) : Bool :=
  ('A' ≤ c && c ≤ 'Z') || c.isDigit || c = '_' || c = '-'

/-- `CAPITALIZED_MARKER_PATTERN = ^(\s*)([A-Z][A-Z0-9_-]{2,})\s+(.+)$`:
returns (token, text).  The token is the maximal run of marker characters
starting with an uppercase letter and of total length ≥ 3. -/
def capitalizedMatch (l : Line) : Option (Line × Line) :=
  match dropWs l with
  | c :: rest =>
    if 'A' ≤ c ∧ c ≤ 'Z' then
      let run := rest.takeWhile isMarkerChar
      if 2 ≤ run.length then
        match wsPlusText (rest.dropWhile isMarkerChar) with
        | some text => some (c :: run, text)
        | none => none
      else none
    else none
  | [] => none

/-- `BLOCKQUOTE_PATTERN = ^(\s*)(>+)\s*(.*)$`: matches iff the first
non-whitespace character is `>`. -/
def isBlockquoteLine (l : Line) : Bool :=
  match dropWs l with
  | '>' :: _ => true
  | _ => false

def isRuleChar (c : Char) : Bool := c = '-' || c = '*' || c = '_'

/-- `HORIZONTAL_RULE_PATTERN = ^(\s*)[-*_]{3,}\s*$`. -/
def isHorizontalRule (l : Line) : Bool :=
  let r := dropWs l
  3 ≤ (r.takeWhile isRuleChar).length && (r.dropWhile isRuleChar).all isWs

/-- `FENCED_CODE_START = ^(\s*)```(\w*)(.*)$`: matches iff the first
non-whitespace characters are three backticks. -/
def isFenceStart (l : Line) : Bool :=
  match dropWs l with
  | '`' :: '`' :: '`' :: _ => true
  | _ => false

/-- `FENCED_CODE_END = ^(\s*)```\s*$`. -/
def isFenceEnd (l : Line) : Bool :=
  match dropWs l with
  | '`' :: '`' :: '`' :: rest => rest.all isWs
  | _ => false

/-- Python `text.split(":", 1)[1]`: everything after the first colon. -/
def afterFirstColon : Line → Line
  | [] => []
  | ':' :: r => r
  | _ :: r => afterFirstColon r

/-- `_parse_list_item_content`: strip the list marker, convert checkboxes
to `TODO`/`DONE`, keep capitalized markers verbatim.  Returns
(content, indent level). -/
def parseListItemContent (l : Line) : String × Nat :=
  let indent := indentLevel l
  match checkboxMatch l with
  | some (check, text) =>
    let status : Line := if check.toLower = 'x' then "DONE".toList else "TODO".toList
    let t := strip text
    let t := if "TODO:".toList.isPrefixOf t || "DONE:".toList.isPrefixOf t then
               strip (afterFirstColon t)
             else t
    ((status ++ ' ' :: t).asString, indent)
  | none =>
  match bulletMatch l with
  | some (_, text) => (text.asString, indent)
  | none =>
  match numberedMatch l with
  | some text => (text.asString, indent)
  | none =>
  match capitalizedMatch l with
  | some (tok, text) => ((tok ++ ' ' :: text).asString, indent)
  | none => ((strip l).asString, indent)

/-- Python `content.split("\n")`. -/
def splitLines : List Char → List Line
  | [] => [[]]
  | c :: rest =>
    if c = '\n' then [] :: splitLines rest
    else
      match splitLines rest with
      | [] => [[c]]
      | l :: ls => (c :: l) :: ls

/-! ## Frontmatter extraction

`FRONTMATTER_PATTERN = ^---\s*\n(.*?)\n---\s*\n` with `re.DOTALL`, applied
with `re.match`.  The functions below reproduce the engine's search order:
the leading `\s*` is greedy (latest possible newline first), the group is
lazy (shortest first), and the closing `\s*` is greedy again. -/

/-- The closing `---\s*\n` of the frontmatter pattern: the input must start
with three dashes, and the consumed newline is the **last** newline inside
the following maximal whitespace run.  Returns the text after the match. -/
def matchCloseAfter (cs : Line) : Option Line :=
  match cs with
  | '-' :: '-' :: '-' :: t =>
    let w := leadWs t
    match w.reverse.findIdx? (· = '\n') with
    | some j => some (t.drop (w.length - j))
    | none => none
  | _ => none

/-- Lazy search for the group `(.*?)\n---\s*\n`: try the shortest group
first, extending past each newline on failure.  Returns (group, rest). -/
def searchGroup (body : Line) (acc : Line) : Option (Line × Line) :=
  match body with
  | [] => none
  | c :: rest =>
    if c = '\n' then
      match matchCloseAfter rest with
      | some r => some (acc.reverse, r)
      | none => searchGroup rest (c :: acc)
    else searchGroup rest (c :: acc)

/-- The first successful result of `f` over a list of candidate positions
(the engine tries them in order). -/
def firstSome (f : Nat → Option (Line × Line)) : List Nat → Option (Line × Line)
  | [] => none
  | i :: is =>
    match f i with
    | some v => some v
    | none => firstSome f is

/-- `FRONTMATTER_PATTERN.match(content)`: returns (group 1, text after the
match) when the pattern matches at the start of the content. -/
def frontmatterMatch (cs : Line) : Option (Line × Line) :=
  match cs with
  | '-' :: '-' :: '-' :: after =>
    let w := leadWs after
    let cands := ((List.range w.length).filter
        (fun i => (after.drop i).head? = some '\n')).reverse
    firstSome (fun i => searchGroup (after.drop (i + 1)) []) cands
  | _ => none

/-- Values produced by the YAML library (outside this repository).  A date
or datetime is modelled by its ISO-8601 rendering. -/
inductive YamlValue : Type where
  | str (s : String)
  | date (iso : String)
  | listv (xs : List YamlValue)
  | mapv (m : List (String × YamlValue))

abbrev FMProps := List (String × YamlValue)

mutual
/-- `_serialize_frontmatter_value`: convert date/datetime values to ISO
strings, recursing through lists and mappings. -/
def serializeVal : YamlValue → YamlValue
  | .str s => .str s
  | .date iso => .str iso
  | .listv xs => .listv (serializeList xs)
  | .mapv m => .mapv (serializePairs m)

def serializeList : List YamlValue → List YamlValue
  | [] => []
  | v :: vs => serializeVal v :: serializeList vs

def serializePairs : List (String × YamlValue) → List (String × YamlValue)
  | [] => []
  | (k, v) :: ps => (k, serializeVal v) :: serializePairs ps
end

/-- Outcome of `yaml.safe_load` on the delimited header: an exception, the
value `None`, a non-mapping value, or a mapping. -/
inductive YamlOutcome : Type where
  | failure
  | null
  | nonMapping (v : YamlValue)
  | mapping (m : List (String × YamlValue))

/-- `parse_frontmatter`, parameterised by the YAML library's behaviour. -/
def parse_frontmatter (yamlLoad : Line → YamlOutcome) (content : String) :
    FMProps × String :=
  let cs := content.toList
  if ¬ (['-', '-', '-'].isPrefixOf cs) then ([], content)
  else
    match frontmatterMatch cs with
    | none => ([], content)
    | some (g, rest) =>
      let props : FMProps :=
        match yamlLoad g with
        | .failure => []
        | .null => []
        | .nonMapping _ => []
        | .mapping m => serializePairs m
      (props, rest.asString)

/-! ## Block tree -/

/-- `BlockNode`: content, children, properties, level. -/
inductive BlockNode : Type where
  | mk (content : String) (children : List BlockNode)
       (properties : FMProps) (level : Nat)

def BlockNode.content : BlockNode → String
  | .mk c _ _ _ => c

def BlockNode.children : BlockNode → List BlockNode
  | .mk _ cs _ _ => cs

def BlockNode.properties : BlockNode → FMProps
  | .mk _ _ p _ => p

def BlockNode.level : BlockNode → Nat
  | .mk _ _ _ n => n

/-- The wire record of `to_batch_format`: `children` and `properties` are
`none` exactly when the corresponding dictionary key is omitted. -/
inductive BatchRecord : Type where
  | mk (content : String) (children : Option (List BatchRecord))
       (properties : Option FMProps)

def BatchRecord.content : BatchRecord → String
  | .mk c _ _ => c

def BatchRecord.children : BatchRecord → Option (List BatchRecord)
  | .mk _ cs _ => cs

def BatchRecord.properties : BatchRecord → Option FMProps
  | .mk _ _ p => p

mutual
/-- `BlockNode.to_batch_format`. -/
def toBatchFormat : BlockNode → BatchRecord
  | .mk c cs p _ =>
    .mk c (if cs.isEmpty then none else some (toBatchList cs))
          (if p.isEmpty then none else some p)

def toBatchList : List BlockNode → List BatchRecord
  | [] => []
  | n :: ns => toBatchFormat n :: toBatchList ns
end

/-! ## Parser state

Python's `MarkdownParser` mutates heading nodes in place through the
references held on `heading_stack`.  The embedding represents each stack
entry as the heading's level together with its **path** into the forest
(`blocks`), and performs the mutation as a functional update at that path. -/

def modifyAt {α : Type} : List α → Nat → (α → α) → List α
  | [], _, _ => []
  | x :: xs, 0, g => g x :: xs
  | x :: xs, i + 1, g => x :: modifyAt xs i g

/-- The node at a (nonempty) path into a forest. -/
def getAt : List BlockNode → List Nat → Option BlockNode
  | f, [i] => f[i]?
  | f, i :: rest =>
    match f[i]? with
    | some n => getAt n.children rest
    | none => none
  | _, [] => none

/-- Append a node under the node at the given path (at the root level for
the empty path). -/
def appendUnder : List BlockNode → List Nat → BlockNode → List BlockNode
  | f, [], b => f ++ [b]
  | f, i :: rest, b =>
    modifyAt f i (fun n => .mk n.content (appendUnder n.children rest b) n.properties n.level)

def childCountAt (f : List BlockNode) (p : List Nat) : Nat :=
  match getAt f p with
  | some n => n.children.length
  | none => 0

structure ParserState where
  blocks : List BlockNode
  /-- `heading_stack`, innermost (Python's last element) first: each entry
  is the heading's level and its path into `blocks`. -/
  stack : List (Nat × List Nat)
  currentHeadingLevel : Nat

def initState : ParserState := ⟨[], [], 0⟩

/-- `MarkdownParser._add_block`: append under the innermost open heading,
or at the root level when no heading is open. -/
def addBlock (st : ParserState) (b : BlockNode) : ParserState :=
  match st.stack with
  | [] => { st with blocks := st.blocks ++ [b] }
  | (_, p) :: _ => { st with blocks := appendUnder st.blocks p b }

/-- `MarkdownParser._parse_heading`: pop stack entries with level ≥ the new
level, attach the new heading under the surviving top (or as a root), and
push it. -/
def parseHeading (st : ParserState) (l : Line) (level : Nat) : ParserState :=
  if headingLevelOf l = 0 then st
  else
    let hb : BlockNode := .mk (strip l).asString [] [] level
    let stack' := st.stack.dropWhile (fun e => level ≤ e.1)
    match stack' with
    | [] =>
      { blocks := st.blocks ++ [hb]
        stack := [(level, [st.blocks.length])]
        currentHeadingLevel := level }
    | (_, p) :: _ =>
      { blocks := appendUnder st.blocks p hb
        stack := (level, p ++ [childCountAt st.blocks p]) :: stack'
        currentHeadingLevel := level }

/-- The scanning loop of `_parse_fenced_code`: consume lines up to and
including the closing fence (or all remaining lines). -/
def fencedBody : List Line → List Line × List Line
  | [] => ([], [])
  | l :: ls =>
    if isFenceEnd l then ([l], ls)
    else (l :: (fencedBody ls).1, (fencedBody ls).2)

def joinLines (sep : Char) : List Line → Line
  | [] => []
  | [l] => l
  | l :: ls => l ++ sep :: joinLines sep ls

/-- `MarkdownParser._parse_fenced_code`: the block's content (opening fence
included) and the lines after the block. -/
def parseFencedCode (l : Line) (ls : List Line) : String × List Line :=
  ((joinLines '\n' (l :: (fencedBody ls).1)).asString, (fencedBody ls).2)

/-- The scanning loop of `_parse_blockquote`: consume the contiguous run of
blockquote lines, right-stripped. -/
def blockquoteRun : List Line → List Line × List Line
  | [] => ([], [])
  | l :: ls =>
    if isBlockquoteLine l then
      (rstrip l :: (blockquoteRun ls).1, (blockquoteRun ls).2)
    else ([], l :: ls)

/-- The break test of `_parse_paragraph`'s loop (note: the capitalized
marker pattern is **not** tested there). -/
def paraBreak (l : Line) : Bool :=
  headingLevelOf l ≠ 0 || (bulletMatch l).isSome || (numberedMatch l).isSome ||
  (checkboxMatch l).isSome || isBlockquoteLine l || isHorizontalRule l ||
  isFenceStart l

/-- The scanning loop of `_parse_paragraph`: consume non-blank lines that
do not start a special element, stripping each. -/
def paragraphRun : List Line → List Line × List Line
  | [] => ([], [])
  | l :: ls =>
    if isBlank l then ([], l :: ls)
    else if paraBreak l then ([], l :: ls)
    else (strip l :: (paragraphRun ls).1, (paragraphRun ls).2)

/-- The list-item test of the dispatch loop and of the nested scans. -/
def isListLike (l : Line) : Bool :=
  (checkboxMatch l).isSome || (bulletMatch l).isSome ||
  (numberedMatch l).isSome || (capitalizedMatch l).isSome

/-- The special-element test that unconditionally ends a list scan. -/
def isSpecialBreak (l : Line) : Bool :=
  headingLevelOf l ≠ 0 || isFenceStart l || isHorizontalRule l || isBlockquoteLine l

/-- The shared child-scanning loop of `_parse_list_item` (`top = true`) and
`_parse_nested_list_item` (`top = false`).  The two differ only in the
depth-based termination test: the nested scan ends at any line of depth
≤ the item's depth, while the top-level scan ends only when such a line is
strictly shallower or is itself list-like.  `fuel` bounds the number of
consumed lines; callers supply the document's line count. -/
def scanChildren (top : Bool) (d : Nat) : Nat → List Line → List BlockNode × List Line
  | _, [] => ([], [])
  | 0, ls => ([], ls)
  | fuel + 1, l :: ls =>
    if isBlank l then scanChildren top d fuel ls
    else
      let nd := indentLevel l
      if nd ≤ d ∧ (top = false ∨ nd < d ∨ isListLike l = true) then ([], l :: ls)
      else if isSpecialBreak l then ([], l :: ls)
      else if isListLike l then
        let c := parseListItemContent l
        let inner := scanChildren false c.2 fuel ls
        let outer := scanChildren top d fuel inner.2
        (BlockNode.mk c.1 inner.1 [] c.2 :: outer.1, outer.2)
      else
        let outer := scanChildren top d fuel ls
        (BlockNode.mk (strip l).asString [] [] nd :: outer.1, outer.2)

/-- `MarkdownParser._parse_nested_list_item` on first line `l` and
following lines `ls`. -/
def parseNestedListItem (fuel : Nat) (l : Line) (ls : List Line) :
    BlockNode × List Line :=
  let c := parseListItemContent l
  (.mk c.1 (scanChildren false c.2 fuel ls).1 [] c.2, (scanChildren false c.2 fuel ls).2)

/-- `MarkdownParser._parse_list_item` on first line `l` and following
lines `ls`. -/
def parseListItem (fuel : Nat) (l : Line) (ls : List Line) :
    BlockNode × List Line :=
  let c := parseListItemContent l
  (.mk c.1 (scanChildren true c.2 fuel ls).1 [] c.2, (scanChildren true c.2 fuel ls).2)

/-- One iteration of `MarkdownParser.parse`'s dispatch loop on the current
line `l` and remaining lines `ls`: blank line, fenced code, heading,
horizontal rule, blockquote, list item, paragraph — in that order. -/
def parseStep (fuel : Nat) (st : ParserState) (l : Line) (ls : List Line) :
    ParserState × List Line :=
  if isBlank l then (st, ls)
  else if isFenceStart l then
    (addBlock st (.mk (parseFencedCode l ls).1 [] [] 0), (parseFencedCode l ls).2)
  else if 0 < headingLevelOf l then
    (parseHeading st l (headingLevelOf l), ls)
  else if isHorizontalRule l then
    (addBlock st (.mk "---" [] [] 0), ls)
  else if isBlockquoteLine l then
    let q := (blockquoteRun (l :: ls)).1
    ((if q.isEmpty then st else addBlock st (.mk (joinLines '\n' q).asString [] [] 0)),
     (blockquoteRun (l :: ls)).2)
  else if isListLike l then
    (addBlock st (parseListItem fuel l ls).1, (parseListItem fuel l ls).2)
  else
    let p := (paragraphRun (l :: ls)).1
    ((if p.isEmpty then st else addBlock st (.mk (joinLines ' ' p).asString [] [] 0)),
     (paragraphRun (l :: ls)).2)

def parseLoop : Nat → ParserState → List Line → ParserState
  | _, st, [] => st
  | 0, st, _ => st
  | fuel + 1, st, l :: ls =>
    parseLoop fuel (parseStep fuel st l ls).1 (parseStep fuel st l ls).2

/-- `MarkdownParser.parse` (also `parse_markdown_to_blocks`): the list of
root-level block nodes. -/
def MarkdownParser.parse (content : String) : List BlockNode :=
  if isBlank content.toList then []
  else
    let lines := splitLines content.toList
    (parseLoop lines.length initState lines).blocks

structure ParsedContent where
  properties : FMProps
  blocks : List BlockNode

/-- `parse_content`: frontmatter extraction followed by block parsing. -/
def parse_content (yamlLoad : Line → YamlOutcome) (content : String) :
    ParsedContent :=
  if isBlank content.toList then ⟨[], []⟩
  else
    ⟨(parse_frontmatter yamlLoad content).1,
     MarkdownParser.parse (parse_frontmatter yamlLoad content).2⟩

/-! ## Helper lemmas -/

theorem toBatchList_eq_map (ns : List BlockNode) :
    toBatchList ns = ns.map toBatchFormat := by
  induction ns with
  | nil => rfl
  | cons n ns ih => simp [toBatchList, ih]

theorem asString_eq_empty_iff (l : List Char) : l.asString = "" ↔ l = [] := by
  constructor
  · intro h
    have := congrArg String.toList h
    simpa [List.asString, String.toList] using this
  · intro h
    subst h
    rfl

theorem fencedBody_take_drop (ls : List Line) :
    fencedBody ls =
      (ls.takeWhile (fun x => !isFenceEnd x) ++
        (ls.dropWhile (fun x => !isFenceEnd x)).take 1,
       (ls.dropWhile (fun x => !isFenceEnd x)).drop 1) := by
  induction ls with
  | nil => rfl
  | cons l ls ih =>
    by_cases h : isFenceEnd l
    · simp [fencedBody, h, List.takeWhile_cons, List.dropWhile_cons]
    · simp [fencedBody, h, List.takeWhile_cons, List.dropWhile_cons, ih]

/-! ## Claims -/

/-- C9: serialization always carries `content`; `children` is present (and
is the in-order recursive serialization) iff the node has children;
`properties` is present iff the property map is non-empty; empty containers
are never emitted. -/
theorem C9_tree_serializer (n : BlockNode) :
    (toBatchFormat n).content = n.content ∧
    ((toBatchFormat n).children =
      if n.children.isEmpty then none else some (n.children.map toBatchFormat)) ∧
    ((toBatchFormat n).properties =
      if n.properties.isEmpty then none else some n.properties) ∧
    ((toBatchFormat n).children = none ↔ n.children = []) ∧
    ((toBatchFormat n).properties = none ↔ n.properties = []) := by
  obtain ⟨c, cs, p, lvl⟩ := n
  refine ⟨rfl, ?_, ?_, ?_, ?_⟩
  · simp [toBatchFormat, BlockNode.children, BatchRecord.children, toBatchList_eq_map]
  · simp [toBatchFormat, BlockNode.properties, BatchRecord.properties]
  · cases cs <;> simp [toBatchFormat, BlockNode.children, BatchRecord.children]
  · cases p <;> simp [toBatchFormat, BlockNode.properties, BatchRecord.properties]

/-- C8: a fenced-code block consumes the opening line, every line before
the first closing fence, and the closing fence itself when one exists (all
remaining lines otherwise), joined verbatim with newlines into one block's
content; the remaining lines are those after the closing fence. -/
theorem C8_fenced_code (l : Line) (ls : List Line) :
    parseFencedCode l ls =
      ((joinLines '\n'
          (l :: (ls.takeWhile (fun x => !isFenceEnd x) ++
                 (ls.dropWhile (fun x => !isFenceEnd x)).take 1))).asString,
       (ls.dropWhile (fun x => !isFenceEnd x)).drop 1) := by
  unfold parseFencedCode
  rw [fencedBody_take_drop]

/-- C4 counterexample: on a document that starts with two adjacent `---`
delimiter lines, `parse_frontmatter` does **not** strip them — the
remaining text is the whole document (not the text after the second
delimiter), and a `---` block reaches the parsed body. -/
theorem C4_counterexample :
    (parse_frontmatter (fun _ => YamlOutcome.mapping []) "---\n---\nBody").2 ≠ "Body" ∧
    BlockNode.mk "---" [] [] 0 ∈
      (parse_content (fun _ => YamlOutcome.mapping []) "---\n---\nBody").blocks := by
  constructor
  · intro h
    have h' : ("---\n---\nBody" : String) = "Body" := h
    simp at h'
  · have h : (parse_content (fun _ => YamlOutcome.mapping []) "---\n---\nBody").blocks =
        [BlockNode.mk "---" [] [] 0, BlockNode.mk "---" [] [] 0,
         BlockNode.mk "Body" [] [] 0] := rfl
    rw [h]
    exact List.mem_cons_self _ _

theorem searchGroup_acc (body : Line) :
    ∀ (acc g r : Line), searchGroup body acc = some (g, r) →
      acc.reverse <+: g := by
  induction body with
  | nil => intro acc g r h; simp [searchGroup] at h
  | cons c rest ih =>
    intro acc g r h
    unfold searchGroup at h
    by_cases hc : c = '\n'
    · rw [if_pos hc] at h
      cases hm : matchCloseAfter rest with
      | some r2 =>
        rw [hm] at h
        simp only [Option.some.injEq, Prod.mk.injEq] at h
        obtain ⟨rfl, -⟩ := h
        exact List.prefix_refl _
      | none =>
        rw [hm] at h
        have hp := ih (c :: acc) g r h
        rw [List.reverse_cons] at hp
        exact (List.prefix_append acc.reverse [c]).trans hp
    · rw [if_neg hc] at h
      have hp := ih (c :: acc) g r h
      rw [List.reverse_cons] at hp
      exact (List.prefix_append acc.reverse [c]).trans hp

/-- C4 amended: two adjacent delimiter lines are never matched as an
**empty** frontmatter header.  On a document starting `---\n---\n`,
whenever the frontmatter pattern does match, the delimited header itself
begins with the second `---` line (the second delimiter is consumed into
the header, not used as the closing delimiter); and when the pattern does
not match — as on `---\n---\nBody` — extraction returns an empty map with
the entire original text unchanged, whatever the YAML library would do,
and the two delimiter lines are parsed as horizontal-rule blocks `---` in
the body. -/
theorem C4_empty_frontmatter :
    (∀ (t g r : Line),
        frontmatterMatch
            ('-' :: '-' :: '-' :: '\n' :: '-' :: '-' :: '-' :: '\n' :: t) =
          some (g, r) →
        ['-', '-', '-'] <+: g) ∧
    (∀ yamlLoad : Line → YamlOutcome,
        parse_frontmatter yamlLoad "---\n---\nBody" = ([], "---\n---\nBody") ∧
        parse_content yamlLoad "---\n---\nBody" =
          ⟨[], [BlockNode.mk "---" [] [] 0, BlockNode.mk "---" [] [] 0,
                BlockNode.mk "Body" [] [] 0]⟩) := by
  constructor
  · intro t g r h
    have h' : (match searchGroup ('-' :: '-' :: '-' :: '\n' :: t) [] with
        | some b => some b
        | none => (none : Option (Line × Line))) = some (g, r) := h
    cases hs : searchGroup ('-' :: '-' :: '-' :: '\n' :: t) [] with
    | none =>
      rw [hs] at h'
      simp at h'
    | some b =>
      rw [hs] at h'
      simp only [Option.some.injEq] at h'
      subst h'
      have hs' : searchGroup ('\n' :: t) ['-', '-', '-'] = some (g, r) := hs
      simpa using searchGroup_acc ('\n' :: t) ['-', '-', '-'] g r hs'
  · intro yamlLoad
    exact ⟨rfl, rfl⟩

/-- C4 witness: the general statement applied to `"---\n---\n---\nBody"`,
where the pattern does match — with header `---`, not the empty header —
and to the non-matching document `"---\n---\nBody"`. -/
theorem C4_empty_frontmatter_witness :
    ['-', '-', '-'] <+: "---".toList ∧
    parse_frontmatter (fun _ => YamlOutcome.null) "---\n---\nBody" =
      ([], "---\n---\nBody") :=
  ⟨C4_empty_frontmatter.1 ("---\nBody".toList) ("---".toList) ("Body".toList) rfl,
   (C4_empty_frontmatter.2 (fun _ => YamlOutcome.null)).1⟩

/-- C6 counterexample: a line that starts a capitalized status marker does
**not** end a paragraph — `"hello\nTODO world"` is joined into a single
paragraph node even though its second line matches the capitalized marker
pattern. -/
theorem C6_counterexample :
    MarkdownParser.parse "hello\nTODO world" =
      [BlockNode.mk "hello TODO world" [] [] 0] ∧
    (capitalizedMatch "TODO world".toList).isSome = true :=
  ⟨rfl, rfl⟩

/-- C6 amended: the paragraph scan consumes exactly the maximal prefix of
lines that are non-blank and do not start a heading, checkbox, bullet,
numbered item, blockquote, horizontal rule, or fence (capitalized status
markers do **not** break a paragraph); each consumed line is trimmed, and
the first breaking line is left unconsumed. -/
theorem C6_paragraph_run (ls : List Line) :
    paragraphRun ls =
      ((ls.takeWhile (fun l => !isBlank l && !paraBreak l)).map strip,
       ls.dropWhile (fun l => !isBlank l && !paraBreak l)) := by
  induction ls with
  | nil => rfl
  | cons l ls ih =>
    by_cases hb : isBlank l
    · simp [paragraphRun, hb, List.takeWhile_cons, List.dropWhile_cons]
    · by_cases hp : paraBreak l
      · simp [paragraphRun, hb, hp, List.takeWhile_cons, List.dropWhile_cons]
      · simp [paragraphRun, hb, hp, List.takeWhile_cons, List.dropWhile_cons, ih]

theorem checkboxMatch_check {l : Line} {c : Char} {t : Line}
    (h : checkboxMatch l = some (c, t)) : c = ' ' ∨ c = 'x' ∨ c = 'X' := by
  unfold checkboxMatch at h
  split at h
  case h_2 => simp at h
  split at h
  case isFalse => simp at h
  split at h
  case h_2 => simp at h
  split at h
  case isFalse => simp at h
  rename_i m rest hm hrest c' rest2 hbr hcond
  simp only [Option.some.injEq, Prod.mk.injEq] at h
  obtain ⟨rfl, -⟩ := h
  simp only [Bool.and_eq_true, Bool.or_eq_true, decide_eq_true_eq] at hcond
  tauto

/-- C5: for every checkbox line, the emitted content is the status token
(`DONE` for `[x]`/`[X]`, `TODO` for `[ ]`) followed by the item text, with
a redundant leading `TODO:`/`DONE:` also stripped; and the concrete input
from the specification parses to the two expected root nodes. -/
theorem C5_checkbox_content :
    (∀ (l : Line) (check : Char) (text : Line),
        checkboxMatch l = some (check, text) →
        parseListItemContent l =
          (((if check = 'x' ∨ check = 'X' then "DONE".toList else "TODO".toList) ++
              ' ' :: (if "TODO:".toList.isPrefixOf (strip text) ||
                         "DONE:".toList.isPrefixOf (strip text) then
                        strip (afterFirstColon (strip text))
                      else strip text)).asString,
            indentLevel l)) ∧
    MarkdownParser.parse "- [ ] task\n- [x] done\n" =
      [BlockNode.mk "TODO task" [] [] 0, BlockNode.mk "DONE done" [] [] 0] := by
  constructor
  · intro l check text h
    have hc := checkboxMatch_check h
    have hstatus : (if check.toLower = 'x' then "DONE".toList else "TODO".toList) =
        (if check = 'x' ∨ check = 'X' then "DONE".toList else "TODO".toList) := by
      rcases hc with rfl | rfl | rfl <;> decide
    simp only [parseListItemContent, h]
    rw [hstatus]
  · rfl

/-- C5 witness: the general statement applied to a concrete checkbox line
with a redundant status prefix. -/
theorem C5_checkbox_witness :
    parseListItemContent ("- [X] DONE: ship it".toList) = ("DONE ship it", 0) :=
  C5_checkbox_content.1 ("- [X] DONE: ship it".toList) 'X' ("DONE: ship it".toList) rfl

/-! ### Progress lemmas: every scanning loop returns a suffix of its input -/

theorem blockquoteRun_rest_suffix (ls : List Line) : (blockquoteRun ls).2 <:+ ls := by
  induction ls with
  | nil => simp [blockquoteRun]
  | cons l ls ih =>
    by_cases h : isBlockquoteLine l
    · simp only [blockquoteRun, if_pos h]
      exact ih.trans (List.suffix_cons l ls)
    · simp [blockquoteRun, h]

theorem paragraphRun_rest_suffix (ls : List Line) : (paragraphRun ls).2 <:+ ls := by
  induction ls with
  | nil => simp [paragraphRun]
  | cons l ls ih =>
    by_cases h1 : isBlank l
    · simp [paragraphRun, h1]
    · by_cases h2 : paraBreak l
      · simp [paragraphRun, h1, h2]
      · simp only [paragraphRun, if_neg h1, if_neg h2]
        exact ih.trans (List.suffix_cons l ls)

theorem scanChildren_rest_suffix (fuel : Nat) :
    ∀ (top : Bool) (d : Nat) (ls : List Line), (scanChildren top d fuel ls).2 <:+ ls := by
  induction fuel with
  | zero => intro top d ls; cases ls <;> simp [scanChildren]
  | succ fuel ih =>
    intro top d ls
    cases ls with
    | nil => simp [scanChildren]
    | cons l ls =>
      simp only [scanChildren]
      by_cases h1 : isBlank l
      · simp only [if_pos h1]
        exact (ih top d ls).trans (List.suffix_cons l ls)
      · simp only [if_neg h1]
        by_cases h2 : indentLevel l ≤ d ∧
            (top = false ∨ indentLevel l < d ∨ isListLike l = true)
        · simp only [if_pos h2]
          exact List.suffix_refl _
        · simp only [if_neg h2]
          by_cases h3 : isSpecialBreak l
          · simp only [if_pos h3]
            exact List.suffix_refl _
          · simp only [if_neg h3]
            by_cases h4 : isListLike l
            · simp only [if_pos h4]
              have ha := ih false (parseListItemContent l).2 ls
              have hb := ih top d (scanChildren false (parseListItemContent l).2 fuel ls).2
              exact (hb.trans ha).trans (List.suffix_cons l ls)
            · simp only [if_neg h4]
              exact (ih top d ls).trans (List.suffix_cons l ls)

/-- C10: every branch of the dispatch loop consumes at least one line —
the remaining line list after one step is strictly shorter, so the single
forward pass over the document's lines terminates. -/
theorem C10_termination (fuel : Nat) (st : ParserState) (l : Line) (ls : List Line) :
    ((parseStep fuel st l ls).2).length < (l :: ls).length := by
  have hlen : ∀ xs : List Line, xs <:+ ls → xs.length < (l :: ls).length := fun xs h =>
    Nat.lt_succ_of_le h.length_le
  unfold parseStep
  by_cases h1 : isBlank l
  · simp only [if_pos h1]
    exact hlen ls (List.suffix_refl ls)
  simp only [if_neg h1]
  by_cases h2 : isFenceStart l
  · simp only [if_pos h2]
    refine hlen _ ?_
    show (parseFencedCode l ls).2 <:+ ls
    unfold parseFencedCode
    rw [fencedBody_take_drop]
    exact (List.drop_suffix 1 _).trans (List.dropWhile_suffix _)
  simp only [if_neg h2]
  by_cases h3 : 0 < headingLevelOf l
  · simp only [if_pos h3]
    exact hlen ls (List.suffix_refl ls)
  simp only [if_neg h3]
  by_cases h4 : isHorizontalRule l
  · simp only [if_pos h4]
    exact hlen ls (List.suffix_refl ls)
  simp only [if_neg h4]
  by_cases h5 : isBlockquoteLine l
  · simp only [if_pos h5]
    show (blockquoteRun (l :: ls)).2.length < (l :: ls).length
    have he : (blockquoteRun (l :: ls)).2 = (blockquoteRun ls).2 := by
      simp [blockquoteRun, h5]
    rw [he]
    exact hlen _ (blockquoteRun_rest_suffix ls)
  simp only [if_neg h5]
  by_cases h6 : isListLike l
  · simp only [if_pos h6]
    show (parseListItem fuel l ls).2.length < (l :: ls).length
    exact hlen _ (scanChildren_rest_suffix fuel true (parseListItemContent l).2 ls)
  · simp only [if_neg h6]
    show (paragraphRun (l :: ls)).2.length < (l :: ls).length
    have h0 : headingLevelOf l = 0 := Nat.eq_zero_of_not_pos h3
    rw [Bool.not_eq_true] at h2 h4 h5 h6
    have h6' : (checkboxMatch l).isSome = false ∧ (bulletMatch l).isSome = false ∧
        (numberedMatch l).isSome = false := by
      simp only [isListLike, Bool.or_eq_false_iff] at h6
      exact ⟨h6.1.1.1, h6.1.1.2, h6.1.2⟩
    have hpb : paraBreak l = false := by
      simp [paraBreak, h0, h2, h4, h5, h6'.1, h6'.2.1, h6'.2.2]
    have he : (paragraphRun (l :: ls)).2 = (paragraphRun ls).2 := by
      simp [paragraphRun, h1, hpb]
    rw [he]
    exact hlen _ (paragraphRun_rest_suffix ls)

theorem frontmatterMatch_dashes {cs g rest : Line}
    (h : frontmatterMatch cs = some (g, rest)) :
    ['-', '-', '-'].isPrefixOf cs = true := by
  unfold frontmatterMatch at h
  split at h
  · simp [List.isPrefixOf]
  · simp at h

/-- C1 counterexample: on a matched frontmatter block whose header fails to
parse, the extractor does **not** return the original text — the delimiters
and the delimited header are dropped and only the text after the closing
delimiter remains. -/
theorem C1_counterexample :
    parse_frontmatter (fun _ => YamlOutcome.failure) "---\nhello\n---\nBody" =
      ([], "Body") ∧
    ("Body" : String) ≠ "---\nhello\n---\nBody" :=
  ⟨rfl, by decide⟩

/-- C1 amended: when the frontmatter pattern matches and the YAML parse of
the delimited header fails or yields a non-mapping value, `parse_frontmatter`
returns an empty property map together with the text **after** the matched
block — the delimiter lines and the header are removed, not preserved. -/
theorem C1_malformed_frontmatter (yamlLoad : Line → YamlOutcome)
    (content : String) (g rest : Line)
    (hm : frontmatterMatch content.toList = some (g, rest))
    (hy : yamlLoad g = .failure ∨ ∃ v, yamlLoad g = .nonMapping v) :
    parse_frontmatter yamlLoad content = ([], rest.asString) := by
  unfold parse_frontmatter
  rw [if_neg (not_not_intro (frontmatterMatch_dashes hm))]
  rw [hm]
  rcases hy with hy | ⟨v, hy⟩ <;> simp [hy]

/-- C1 witness: the amended statement at a concrete document whose header
the YAML library rejects. -/
theorem C1_malformed_witness :
    parse_frontmatter (fun _ => YamlOutcome.failure) "---\nkey: :\n---\nkept text" =
      ([], "kept text") :=
  C1_malformed_frontmatter (fun _ => YamlOutcome.failure) "---\nkey: :\n---\nkept text"
    ("key: :".toList) ("kept text".toList) rfl (Or.inl rfl)

/-! ### Levels of list subtrees -/

mutual
/-- The node's level and every descendant's level lie strictly above `d`. -/
def levelsAbove (d : Nat) : BlockNode → Bool
  | .mk _ cs _ lvl => decide (d < lvl) && levelsAboveList d cs

def levelsAboveList (d : Nat) : List BlockNode → Bool
  | [] => true
  | n :: ns => levelsAbove d n && levelsAboveList d ns
end

mutual
theorem levelsAbove_mono {a b : Nat} (h : b ≤ a) :
    ∀ n, levelsAbove a n = true → levelsAbove b n = true
  | .mk c cs p lvl, hn => by
    simp only [levelsAbove, Bool.and_eq_true, decide_eq_true_eq] at hn ⊢
    exact ⟨Nat.lt_of_le_of_lt h hn.1, levelsAboveList_mono h cs hn.2⟩

theorem levelsAboveList_mono {a b : Nat} (h : b ≤ a) :
    ∀ ns, levelsAboveList a ns = true → levelsAboveList b ns = true
  | [], _ => rfl
  | n :: ns, hn => by
    simp only [levelsAboveList, Bool.and_eq_true] at hn ⊢
    exact ⟨levelsAbove_mono h n hn.1, levelsAboveList_mono h ns hn.2⟩
end

theorem parseListItemContent_indent (l : Line) :
    (parseListItemContent l).2 = indentLevel l := by
  unfold parseListItemContent
  repeat' split
  all_goals rfl

theorem scanChildren_nested_levels (fuel : Nat) :
    ∀ (d : Nat) (ls : List Line),
      levelsAboveList d (scanChildren false d fuel ls).1 = true := by
  induction fuel with
  | zero => intro d ls; cases ls <;> simp [scanChildren, levelsAboveList]
  | succ fuel ih =>
    intro d ls
    cases ls with
    | nil => simp [scanChildren, levelsAboveList]
    | cons l ls =>
      simp only [scanChildren]
      by_cases h1 : isBlank l
      · simp only [if_pos h1]
        exact ih d ls
      · simp only [if_neg h1]
        by_cases h2 : indentLevel l ≤ d
        · rw [if_pos ⟨h2, Or.inl (by trivial)⟩]
          rfl
        · rw [if_neg (fun hc => h2 hc.1)]
          have hd : d < indentLevel l := Nat.lt_of_not_le h2
          by_cases h3 : isSpecialBreak l
          · simp only [if_pos h3]
            rfl
          · simp only [if_neg h3]
            by_cases h4 : isListLike l
            · simp only [if_pos h4]
              simp only [levelsAboveList, levelsAbove, Bool.and_eq_true,
                decide_eq_true_eq, parseListItemContent_indent]
              refine ⟨⟨hd, ?_⟩, ih d _⟩
              have hin := ih (parseListItemContent l).2 ls
              rw [parseListItemContent_indent] at hin
              exact levelsAboveList_mono (Nat.le_of_lt hd) _
                (by rw [← parseListItemContent_indent l]; exact ih _ ls)
            · simp only [if_neg h4]
              simp only [levelsAboveList, levelsAbove, Bool.and_eq_true,
                decide_eq_true_eq]
              exact ⟨⟨hd, by trivial⟩, ih d ls⟩

/-- C2 counterexample: in the **top-level** list scan, a following line
whose depth equals the item's depth but which is not list-like becomes a
child of the item — parsing `"- a\nb"` places the depth-0 line `b` inside
the subtree of the depth-0 item `a`. -/
theorem C2_counterexample :
    MarkdownParser.parse "- a\nb" =
      [BlockNode.mk "a" [BlockNode.mk "b" [] [] 0] [] 0] ∧
    indentLevel ("b".toList) ≤ indentLevel ("- a".toList) :=
  ⟨rfl, by decide⟩

/-- C2 amended: the **nested** list scan obeys the indentation law — the
item's node carries its line's depth `D`, and every node placed in its
subtree (every strict descendant) has depth `> D`; in the top-level scan a
same-depth line that is neither list-like nor a heading/fence/rule/quote is
instead consumed as a plain child. -/
theorem C2_nested_indentation (fuel : Nat) (l : Line) (ls : List Line) :
    (parseNestedListItem fuel l ls).1.level = indentLevel l ∧
    levelsAboveList (indentLevel l)
      (parseNestedListItem fuel l ls).1.children = true := by
  unfold parseNestedListItem
  constructor
  · simp [BlockNode.level, parseListItemContent_indent]
  · simp only [BlockNode.children]
    rw [← parseListItemContent_indent l]
    exact scanChildren_nested_levels fuel _ ls

/-! ### Path lemmas for the heading stack -/

theorem modifyAt_getElem {α : Type} (f : List α) (i : Nat) (g : α → α) :
    (modifyAt f i g)[i]? = f[i]?.map g := by
  induction f generalizing i with
  | nil => simp [modifyAt]
  | cons x xs ih =>
    cases i with
    | zero => simp [modifyAt]
    | succ i => simpa [modifyAt] using ih i

theorem getAt_appendUnder (p : List Nat) :
    ∀ (f : List BlockNode) (b : BlockNode),
      getAt (appendUnder f p b) p =
        (getAt f p).map (fun n =>
          BlockNode.mk n.content (n.children ++ [b]) n.properties n.level) := by
  induction p with
  | nil => intro f b; simp [getAt]
  | cons i rest ih =>
    intro f b
    cases rest with
    | nil =>
      simp only [getAt, appendUnder, modifyAt_getElem]
    | cons j rest' =>
      simp only [getAt, appendUnder, modifyAt_getElem]
      cases f[i]? with
      | none => rfl
      | some n => simpa [BlockNode.children] using ih n.children b

theorem dropWhile_head_not {α : Type} (p : α → Bool) (ls : List α) {x : α}
    (h : (ls.dropWhile p).head? = some x) : p x = false := by
  induction ls with
  | nil => simp at h
  | cons a ls ih =>
    by_cases hp : p a
    · rw [List.dropWhile_cons_of_pos hp] at h
      exact ih h
    · rw [List.dropWhile_cons_of_neg hp] at h
      simp only [List.head?_cons, Option.some.injEq] at h
      subst h
      simpa using hp

/-- C3: processing a heading line of level `L` pops exactly the stack
entries with level ≥ L, pushes the new heading on top of the surviving
stack, and attaches the heading as the last child of the nearest surviving
open heading — which has strictly smaller level — or appends it as a new
root when no entry survives. -/
theorem C3_heading_hierarchy (st : ParserState) (l : Line) (L : Nat)
    (hmatch : headingLevelOf l = L) (hpos : 0 < L) :
    (parseHeading st l L).stack.tail = st.stack.dropWhile (fun e => L ≤ e.1) ∧
    ((parseHeading st l L).stack.map Prod.fst).head? = some L ∧
    (∀ e ∈ st.stack.takeWhile (fun e => L ≤ e.1), L ≤ e.1) ∧
    (∀ e, (st.stack.dropWhile (fun e => L ≤ e.1)).head? = some e → e.1 < L) ∧
    (match st.stack.dropWhile (fun e => L ≤ e.1) with
     | [] => (parseHeading st l L).blocks =
         st.blocks ++ [BlockNode.mk (strip l).asString [] [] L]
     | (_, p) :: _ =>
       getAt (parseHeading st l L).blocks p =
         (getAt st.blocks p).map (fun n =>
           BlockNode.mk n.content
             (n.children ++ [BlockNode.mk (strip l).asString [] [] L])
             n.properties n.level)) := by
  have hne : ¬ headingLevelOf l = 0 := by omega
  have hhead : ∀ e, (st.stack.dropWhile (fun e => L ≤ e.1)).head? = some e → e.1 < L := by
    intro e he
    have := dropWhile_head_not _ _ he
    simpa using this
  have htake : ∀ e ∈ st.stack.takeWhile (fun e => L ≤ e.1), L ≤ e.1 := by
    intro e he
    simpa using List.mem_takeWhile_imp he
  unfold parseHeading
  rw [if_neg hne]
  cases hs : st.stack.dropWhile (fun e => L ≤ e.1) with
  | nil =>
    rw [hs] at hhead
    refine ⟨by simp, by simp, htake, hhead, ?_⟩
    simp only [hs]
  | cons e tl =>
    obtain ⟨l0, p0⟩ := e
    rw [hs] at hhead
    refine ⟨by simp, by simp, htake, hhead, ?_⟩
    simp only [hs]
    exact getAt_appendUnder p0 st.blocks _

/-- C3 witness: a concrete state with an open `#`/`##` pair, processing a
new `## C` heading. -/
def c3State : ParserState :=
  ⟨[BlockNode.mk "# A" [BlockNode.mk "## B" [] [] 2] [] 1], [(2, [0, 0]), (1, [0])], 2⟩

theorem C3_heading_witness :
    (parseHeading c3State ("## C".toList) 2).stack.tail = [(1, [0])] ∧
    ((parseHeading c3State ("## C".toList) 2).stack.map Prod.fst).head? = some 2 ∧
    (∀ e ∈ c3State.stack.takeWhile (fun e => 2 ≤ e.1), 2 ≤ e.1) ∧
    (∀ e, (c3State.stack.dropWhile (fun e => 2 ≤ e.1)).head? = some e → e.1 < 2) ∧
    getAt (parseHeading c3State ("## C".toList) 2).blocks [0] =
      (getAt c3State.blocks [0]).map (fun n =>
        BlockNode.mk n.content (n.children ++ [BlockNode.mk "## C" [] [] 2])
          n.properties n.level) := by
  exact C3_heading_hierarchy c3State ("## C".toList) 2 rfl (by decide)

/-! ### Non-empty content invariant -/

mutual
/-- The node and all of its descendants have non-empty content. -/
def contentNonempty : BlockNode → Bool
  | .mk c cs _ _ => decide (c ≠ "") && forestNonempty cs

def forestNonempty : List BlockNode → Bool
  | [] => true
  | n :: ns => contentNonempty n && forestNonempty ns
end

/-- A line whose bullet or numbered match has empty item text (such as
`"- "`) is the only source of empty block content; `goodLine` excludes
exactly those lines. -/
def goodLine (l : Line) : Bool :=
  (match bulletMatch l with
   | some x => decide (x.2 ≠ [])
   | none => true) &&
  (match numberedMatch l with
   | some t => decide (t ≠ [])
   | none => true)

theorem forestNonempty_append {f : List BlockNode} {b : BlockNode}
    (hf : forestNonempty f = true) (hb : contentNonempty b = true) :
    forestNonempty (f ++ [b]) = true := by
  induction f with
  | nil => simpa [forestNonempty]
  | cons n ns ih =>
    simp only [forestNonempty, Bool.and_eq_true] at hf ⊢
    exact ⟨hf.1, ih hf.2⟩

theorem forestNonempty_modifyAt {g : BlockNode → BlockNode}
    (hg : ∀ x, contentNonempty x = true → contentNonempty (g x) = true) :
    ∀ (f : List BlockNode) (i : Nat), forestNonempty f = true →
      forestNonempty (modifyAt f i g) = true := by
  intro f
  induction f with
  | nil => intro i hf; simpa [modifyAt]
  | cons n ns ih =>
    intro i hf
    simp only [forestNonempty, Bool.and_eq_true] at hf
    cases i with
    | zero =>
      simp only [modifyAt, forestNonempty, Bool.and_eq_true]
      exact ⟨hg n hf.1, hf.2⟩
    | succ i =>
      simp only [modifyAt, forestNonempty, Bool.and_eq_true]
      exact ⟨hf.1, ih i hf.2⟩

theorem forestNonempty_appendUnder (p : List Nat) :
    ∀ (f : List BlockNode) (b : BlockNode),
      forestNonempty f = true → contentNonempty b = true →
      forestNonempty (appendUnder f p b) = true := by
  induction p with
  | nil => intro f b hf hb; exact forestNonempty_append hf hb
  | cons i rest ih =>
    intro f b hf hb
    refine forestNonempty_modifyAt ?_ f i hf
    intro x hx
    obtain ⟨c, cs, pr, lvl⟩ := x
    simp only [contentNonempty, BlockNode.content, BlockNode.children,
      BlockNode.properties, BlockNode.level, Bool.and_eq_true] at hx ⊢
    exact ⟨hx.1, ih cs b hx.2 hb⟩

theorem addBlock_nonempty {st : ParserState} {b : BlockNode}
    (hst : forestNonempty st.blocks = true) (hb : contentNonempty b = true) :
    forestNonempty (addBlock st b).blocks = true := by
  unfold addBlock
  cases st.stack with
  | nil => simpa using forestNonempty_append hst hb
  | cons e tl =>
    obtain ⟨lv, p⟩ := e
    simpa using forestNonempty_appendUnder p st.blocks b hst hb

theorem strip_ne_nil_of_not_blank {l : Line} (h : isBlank l = false) :
    strip l ≠ [] := by
  intro hc
  simp [isBlank, hc] at h

theorem ne_nil_of_not_blank {l : Line} (h : isBlank l = false) : l ≠ [] := by
  intro hc
  subst hc
  simp [isBlank, strip] at h

theorem asString_ne_of_ne_nil {l : Line} (h : l ≠ []) : l.asString ≠ "" := by
  intro hc
  exact h ((asString_eq_empty_iff l).mp hc)

theorem joinLines_ne_nil (sep : Char) {l : Line} (ls : List Line) (h : l ≠ []) :
    joinLines sep (l :: ls) ≠ [] := by
  cases ls with
  | nil => simpa [joinLines]
  | cons l2 ls => simp [joinLines]

theorem rstrip_ne_nil_of_not_blank {l : Line} (h : isBlank l = false) :
    rstrip l ≠ [] := by
  intro hc
  apply strip_ne_nil_of_not_blank h
  have hr : l.reverse.dropWhile isWs = [] := by
    simpa [rstrip] using congrArg List.reverse hc
  have hall : ∀ x ∈ l, isWs x = true := by
    intro x hx
    exact List.dropWhile_eq_nil_iff.mp hr x (List.mem_reverse.mpr hx)
  have hd : l.dropWhile isWs = [] := List.dropWhile_eq_nil_iff.mpr hall
  simp [strip, hd]

theorem parseListItemContent_good {l : Line} (hg : goodLine l = true)
    (hl : isListLike l = true) : (parseListItemContent l).1 ≠ "" := by
  unfold parseListItemContent
  cases hc : checkboxMatch l with
  | some v =>
    obtain ⟨check, text⟩ := v
    simp only [hc]
    apply asString_ne_of_ne_nil
    simp
  | none =>
    cases hb : bulletMatch l with
    | some v =>
      obtain ⟨m, text⟩ := v
      simp only [hc, hb]
      apply asString_ne_of_ne_nil
      unfold goodLine at hg
      rw [hb] at hg
      simp only [Bool.and_eq_true, decide_eq_true_eq] at hg
      exact hg.1
    | none =>
      cases hn : numberedMatch l with
      | some text =>
        simp only [hc, hb, hn]
        apply asString_ne_of_ne_nil
        unfold goodLine at hg
        rw [hn] at hg
        simp only [Bool.and_eq_true, decide_eq_true_eq] at hg
        exact hg.2
      | none =>
        cases hcap : capitalizedMatch l with
        | some v =>
          obtain ⟨tok, text⟩ := v
          simp only [hc, hb, hn, hcap]
          apply asString_ne_of_ne_nil
          simp
        | none =>
          exfalso
          unfold isListLike at hl
          rw [hc, hb, hn, hcap] at hl
          simp at hl

theorem scanChildren_nonempty (fuel : Nat) :
    ∀ (top : Bool) (d : Nat) (ls : List Line),
      (∀ x ∈ ls, goodLine x = true) →
      forestNonempty (scanChildren top d fuel ls).1 = true := by
  induction fuel with
  | zero => intro top d ls h; cases ls <;> simp [scanChildren, forestNonempty]
  | succ fuel ih =>
    intro top d ls h
    cases ls with
    | nil => simp [scanChildren, forestNonempty]
    | cons l ls =>
      have hl := h l (List.mem_cons_self l ls)
      have hls : ∀ x ∈ ls, goodLine x = true := fun x hx => h x (List.mem_cons_of_mem l hx)
      simp only [scanChildren]
      by_cases h1 : isBlank l
      · simp only [if_pos h1]
        exact ih top d ls hls
      · simp only [if_neg h1]
        by_cases h2 : indentLevel l ≤ d ∧
            (top = false ∨ indentLevel l < d ∨ isListLike l = true)
        · simp only [if_pos h2]
          rfl
        · simp only [if_neg h2]
          by_cases h3 : isSpecialBreak l
          · simp only [if_pos h3]
            rfl
          · simp only [if_neg h3]
            by_cases h4 : isListLike l
            · simp only [if_pos h4]
              simp only [forestNonempty, contentNonempty, Bool.and_eq_true,
                decide_eq_true_eq]
              refine ⟨⟨parseListItemContent_good hl h4, ih false _ ls hls⟩, ?_⟩
              refine ih top d _ ?_
              intro x hx
              exact hls x ((scanChildren_rest_suffix fuel false _ ls).subset hx)
            · simp only [if_neg h4]
              simp only [forestNonempty, contentNonempty, Bool.and_eq_true,
                decide_eq_true_eq]
              have h1f : isBlank l = false := by simpa using h1
              exact ⟨⟨asString_ne_of_ne_nil (strip_ne_nil_of_not_blank h1f), by trivial⟩,
                ih top d ls hls⟩

theorem parseStep_rest_suffix (fuel : Nat) (st : ParserState) (l : Line)
    (ls : List Line) : (parseStep fuel st l ls).2 <:+ l :: ls := by
  unfold parseStep
  by_cases h1 : isBlank l
  · simp only [if_pos h1]
    exact List.suffix_cons l ls
  simp only [if_neg h1]
  by_cases h2 : isFenceStart l
  · simp only [if_pos h2]
    show (parseFencedCode l ls).2 <:+ l :: ls
    unfold parseFencedCode
    rw [fencedBody_take_drop]
    exact ((List.drop_suffix 1 _).trans (List.dropWhile_suffix _)).trans
      (List.suffix_cons l ls)
  simp only [if_neg h2]
  by_cases h3 : 0 < headingLevelOf l
  · simp only [if_pos h3]
    exact List.suffix_cons l ls
  simp only [if_neg h3]
  by_cases h4 : isHorizontalRule l
  · simp only [if_pos h4]
    exact List.suffix_cons l ls
  simp only [if_neg h4]
  by_cases h5 : isBlockquoteLine l
  · simp only [if_pos h5]
    exact blockquoteRun_rest_suffix (l :: ls)
  simp only [if_neg h5]
  by_cases h6 : isListLike l
  · simp only [if_pos h6]
    show (parseListItem fuel l ls).2 <:+ l :: ls
    exact (scanChildren_rest_suffix fuel true _ ls).trans (List.suffix_cons l ls)
  · simp only [if_neg h6]
    exact paragraphRun_rest_suffix (l :: ls)

theorem parseHeading_nonempty {st : ParserState} {l : Line} (level : Nat)
    (hst : forestNonempty st.blocks = true) (hbl : isBlank l = false) :
    forestNonempty (parseHeading st l level).blocks = true := by
  unfold parseHeading
  by_cases h0 : headingLevelOf l = 0
  · simpa [h0] using hst
  · rw [if_neg h0]
    have hb : contentNonempty (BlockNode.mk (strip l).asString [] [] level) = true := by
      simp only [contentNonempty, Bool.and_eq_true, decide_eq_true_eq]
      exact ⟨asString_ne_of_ne_nil (strip_ne_nil_of_not_blank hbl), by trivial⟩
    cases st.stack.dropWhile (fun e => level ≤ e.1) with
    | nil => simpa using forestNonempty_append hst hb
    | cons e tl =>
      obtain ⟨lv, p⟩ := e
      simpa using forestNonempty_appendUnder p st.blocks _ hst hb

theorem parseStep_nonempty (fuel : Nat) (st : ParserState) (l : Line)
    (ls : List Line) (hst : forestNonempty st.blocks = true)
    (h : ∀ x ∈ l :: ls, goodLine x = true) :
    forestNonempty ((parseStep fuel st l ls).1).blocks = true := by
  have hl := h l (List.mem_cons_self l ls)
  have hls : ∀ x ∈ ls, goodLine x = true := fun x hx => h x (List.mem_cons_of_mem l hx)
  unfold parseStep
  by_cases h1 : isBlank l
  · simpa [h1] using hst
  have h1f : isBlank l = false := by simpa using h1
  simp only [if_neg h1]
  by_cases h2 : isFenceStart l
  · simp only [if_pos h2]
    show forestNonempty
      (addBlock st (BlockNode.mk (parseFencedCode l ls).1 [] [] 0)).blocks = true
    apply addBlock_nonempty hst
    simp only [contentNonempty, Bool.and_eq_true, decide_eq_true_eq]
    refine ⟨?_, by trivial⟩
    show (joinLines '\n' (l :: (fencedBody ls).1)).asString ≠ ""
    exact asString_ne_of_ne_nil (joinLines_ne_nil '\n' _ (ne_nil_of_not_blank h1f))
  simp only [if_neg h2]
  by_cases h3 : 0 < headingLevelOf l
  · simp only [if_pos h3]
    exact parseHeading_nonempty _ hst h1f
  simp only [if_neg h3]
  by_cases h4 : isHorizontalRule l
  · simp only [if_pos h4]
    apply addBlock_nonempty hst
    simp [contentNonempty, forestNonempty]
  simp only [if_neg h4]
  by_cases h5 : isBlockquoteLine l
  · simp only [if_pos h5]
    have hq : (blockquoteRun (l :: ls)).1 = rstrip l :: (blockquoteRun ls).1 := by
      simp [blockquoteRun, h5]
    show forestNonempty
      ((if ((blockquoteRun (l :: ls)).1).isEmpty then st
        else addBlock st
          (BlockNode.mk (joinLines '\n' ((blockquoteRun (l :: ls)).1)).asString [] [] 0)).blocks)
      = true
    rw [hq]
    simp only [List.isEmpty_cons, Bool.false_eq_true, if_false]
    apply addBlock_nonempty hst
    simp only [contentNonempty, Bool.and_eq_true, decide_eq_true_eq]
    exact ⟨asString_ne_of_ne_nil
      (joinLines_ne_nil '\n' _ (rstrip_ne_nil_of_not_blank h1f)), by trivial⟩
  simp only [if_neg h5]
  by_cases h6 : isListLike l
  · simp only [if_pos h6]
    show forestNonempty (addBlock st (parseListItem fuel l ls).1).blocks = true
    apply addBlock_nonempty hst
    simp only [parseListItem, contentNonempty, Bool.and_eq_true, decide_eq_true_eq]
    exact ⟨parseListItemContent_good hl h6, scanChildren_nonempty fuel true _ ls hls⟩
  · simp only [if_neg h6]
    have h0 : headingLevelOf l = 0 := Nat.eq_zero_of_not_pos h3
    rw [Bool.not_eq_true] at h2 h4 h5 h6
    have h6' : (checkboxMatch l).isSome = false ∧ (bulletMatch l).isSome = false ∧
        (numberedMatch l).isSome = false := by
      simp only [isListLike, Bool.or_eq_false_iff] at h6
      exact ⟨h6.1.1.1, h6.1.1.2, h6.1.2⟩
    have hpb : paraBreak l = false := by
      simp [paraBreak, h0, h2, h4, h5, h6'.1, h6'.2.1, h6'.2.2]
    have hp : (paragraphRun (l :: ls)).1 = strip l :: (paragraphRun ls).1 := by
      simp [paragraphRun, h1, hpb]
    show forestNonempty
      ((if ((paragraphRun (l :: ls)).1).isEmpty then st
        else addBlock st
          (BlockNode.mk (joinLines ' ' ((paragraphRun (l :: ls)).1)).asString [] [] 0)).blocks)
      = true
    rw [hp]
    simp only [List.isEmpty_cons, Bool.false_eq_true, if_false]
    apply addBlock_nonempty hst
    simp only [contentNonempty, Bool.and_eq_true, decide_eq_true_eq]
    exact ⟨asString_ne_of_ne_nil
      (joinLines_ne_nil ' ' _ (strip_ne_nil_of_not_blank h1f)), by trivial⟩

theorem parseLoop_nonempty (fuel : Nat) :
    ∀ (st : ParserState) (ls : List Line),
      forestNonempty st.blocks = true → (∀ x ∈ ls, goodLine x = true) →
      forestNonempty (parseLoop fuel st ls).blocks = true := by
  induction fuel with
  | zero => intro st ls hst h; cases ls <;> simpa [parseLoop]
  | succ fuel ih =>
    intro st ls hst h
    cases ls with
    | nil => simpa [parseLoop]
    | cons l ls =>
      simp only [parseLoop]
      apply ih
      · exact parseStep_nonempty fuel st l ls hst h
      · intro x hx
        exact h x ((parseStep_rest_suffix fuel st l ls).subset hx)

/-- C7 counterexample: the input `"- "` (a bullet marker with empty item
text) produces a root node whose content is the empty string, so the final
forest does contain a node with empty content. -/
theorem C7_counterexample :
    MarkdownParser.parse "- " = [BlockNode.mk "" [] [] 0] ∧
    forestNonempty (MarkdownParser.parse "- ") = false :=
  ⟨rfl, rfl⟩

/-- C7 amended: every node of the final forest has non-empty content,
provided no input line is a bullet or numbered list line with empty item
text (such as `"- "` or `"1. "`) — those lines, and only those, produce a
node with empty content. -/
theorem C7_no_empty_content (content : String)
    (h : ∀ x ∈ splitLines content.toList, goodLine x = true) :
    forestNonempty (MarkdownParser.parse content) = true := by
  unfold MarkdownParser.parse
  split
  · simp [forestNonempty]
  · exact parseLoop_nonempty _ initState _ rfl h

/-- C7 witness: the amended invariant at a concrete document exercising
headings, lists, nesting and blockquotes. -/
theorem C7_no_empty_content_witness :
    forestNonempty (MarkdownParser.parse "# T\n- alpha\n  - beta\n> quote") = true :=
  C7_no_empty_content "# T\n- alpha\n  - beta\n> quote" (by decide)

end McpLogseq
